import Mathlib

/-!
Shallow embedding of the core of the Astrology Gemini client
(dynamic byte buffer, URL utilities, gemtext parsing, response-header
handling and the fetch state machine), together with theorems checking
the natural-language specification against it.

Content buffers are modelled as `List Char`.  The C code always works on
a buffer that carries a terminating NUL byte just past its logical
length; reads at or past that length are modelled by `chAt`, which
returns the NUL character there, exactly as the C code observes.
-/

/-- NUL character, the terminator the C code relies on. -/
def nul_char : Char := Char.ofNat 0

/-- Backquote character (the gemtext fence character). -/
def backquote : Char := Char.ofNat 96

/-- Reading byte `i` of a NUL-terminated buffer: inside the logical
length it is the stored byte, at or past it the C code sees NUL. -/
def chAt (c : List Char) (i : Nat) : Char := c.getD i nul_char

/-- C `isspace` in the default locale: space, TAB, LF, VT, FF, CR. -/
def isspace_c (ch : Char) : Bool :=
  ch = ' ' || ch = '\t' || ch = '\n' || ch = Char.ofNat 11 || ch = Char.ofNat 12 || ch = '\r'

/-- Number of leading characters of `l` satisfying C `isspace`;
models the `while (isspace(content[offset])) offset++;` scan, which the
NUL terminator (not a space) always stops at the end of the buffer. -/
def leadingWs : List Char → Nat
  | [] => 0
  | a :: r => if isspace_c a then leadingWs r + 1 else 0

/-- Index of the first occurrence of `ch` in `l`, or `l.length` when
there is none; models `strchr` restricted to the buffer. -/
def strchr_idx : List Char → Char → Nat
  | [], _ => 0
  | a :: r, ch => if a = ch then 0 else strchr_idx r ch + 1

/-- Count of occurrences of `ch` in `l` (used by the raw-text parse to
count line breaks). -/
def count_ch : List Char → Char → Nat
  | [], _ => 0
  | a :: r, ch => (if a = ch then 1 else 0) + count_ch r ch

/-- C `strncmp(pat, line + off, pat.length) == 0` for a NUL-free
pattern `pat`: every pattern byte matches the buffer byte (NUL-padded)
at the corresponding position. -/
def matches_at (c : List Char) (off : Nat) : List Char → Bool
  | [] => true
  | p :: ps => chAt c off = p && matches_at c (off + 1) ps

/-- gemtext line types, from `gemtext_line_e` in gemini.h. -/
inductive gemtext_line_e
  | paragraph
  | preformatted
  | link
  | heading_one
  | heading_two
  | heading_three
  | blockquote
  | list_item
deriving DecidableEq, Repr

/-- Line record, from `gemtext_line_t`: a type and inclusive byte
boundaries into the content buffer (`end` is a Lean keyword, hence
`end_`). -/
structure gemtext_line_t where
  type : gemtext_line_e
  start : Nat
  end_ : Nat
deriving DecidableEq, Repr

/-- Embedding of `get_gemtext_type_from_line(document->content + off)`:
assigns a type from the prefix bytes of the buffer suffix starting at
`off`.  Mirrors the C switch: `>`, `*`, `#` (with the heading-level
test reading bytes `off+1` and `off+2`), then the `=>` and triple
backquote `strncmp` checks. -/
def get_gemtext_type_from_line (c : List Char) (off : Nat) : gemtext_line_e :=
  if chAt c off = '>' then .blockquote
  else if chAt c off = '*' then .list_item
  else if chAt c off = '#' then
    if chAt c (off + 1) ≠ nul_char ∧ chAt c (off + 2) = '#' then .heading_three
    else if chAt c (off + 1) = '#' then .heading_two
    else .heading_one
  else if matches_at c off ['=', '>'] then .link
  else if matches_at c off [backquote, backquote, backquote] then .preformatted
  else .paragraph

/-- Start offset of the next element: with a preformatted block open the
scan offset is used as is, otherwise leading whitespace is skipped. -/
def gemtext_step_start (c : List Char) (offset : Nat) (pre : Bool) : Nat :=
  if pre then offset else offset + leadingWs (c.drop offset)

/-- Type recorded for the element at `off`: the detected type, except
that inside an open preformatted block every line is forced to
preformatted. -/
def gemtext_line_type (c : List Char) (off : Nat) (pre : Bool) : gemtext_line_e :=
  if get_gemtext_type_from_line c off = .preformatted then .preformatted
  else if pre then .preformatted
  else get_gemtext_type_from_line c off

/-- Preformatted state after the element at `off`: a fence line toggles
it, every other line leaves it unchanged. -/
def gemtext_next_pre (c : List Char) (off : Nat) (pre : Bool) : Bool :=
  if get_gemtext_type_from_line c off = .preformatted then !pre else pre

/-- Index where the end scan
`while (end != len-1 && content[end] != '\n') end++;` stops, starting
from `start`: the first newline at or after `start`, capped at
`len - 1`. -/
def scan_stop (c : List Char) (start : Nat) : Nat :=
  min (start + strchr_idx (c.drop start) '\n') (c.length - 1)

/-- Fueled embedding of the loop of `gemini_document_parse_gemtext`
(the newer gemini.c).  The fuel only makes the recursion structural;
`gemtext_loop_fuel_irrelevant` shows any fuel above `c.length - offset`
computes the same list, which is the termination argument of the C
loop (the scan offset strictly increases).  The `stop - 1` of the
non-final branch reproduces `new_item->end--`; from the entry state
(`pre = false`, `offset = 0`) it is only reached with `stop ≥ 1`, so
the natural-number truncation is never exercised. -/
def gemtext_loop : Nat → List Char → Nat → Bool → List gemtext_line_t
  | 0, _, _, _ => []
  | fuel + 1, c, offset, pre =>
    if offset < c.length then
      if c.length ≤ gemtext_step_start c offset pre then []
      else
        if scan_stop c (gemtext_step_start c offset pre) = c.length - 1 then
          [⟨gemtext_line_type c (gemtext_step_start c offset pre) pre,
            gemtext_step_start c offset pre,
            scan_stop c (gemtext_step_start c offset pre)⟩]
        else
          ⟨gemtext_line_type c (gemtext_step_start c offset pre) pre,
            gemtext_step_start c offset pre,
            scan_stop c (gemtext_step_start c offset pre) - 1⟩ ::
            gemtext_loop fuel c (scan_stop c (gemtext_step_start c offset pre) + 1)
              (gemtext_next_pre c (gemtext_step_start c offset pre) pre)
    else []

/-- Embedding of `gemini_document_parse_gemtext`: run the loop from
offset 0 outside any preformatted block. -/
def gemini_document_parse_gemtext (c : List Char) : List gemtext_line_t :=
  gemtext_loop (c.length + 1) c 0 false

/-- Loop of `gemini_document_parse_text`, by recursion on the number of
remaining iterations (`total_lines - i` in the C `for` loop).  Every
iteration except the last ends its element at the next newline and
advances past it; the last element ends at the logical length.  The
`strchr` of the C code always finds a newline there because at least
two line breaks remain; `strchr_idx` returns it likewise. -/
def parse_text_loop (c : List Char) : Nat → Nat → List gemtext_line_t
  | _, 0 => []
  | offset, 1 => [⟨.preformatted, offset, c.length⟩]
  | offset, n + 2 =>
    ⟨.preformatted, offset, offset + strchr_idx (c.drop offset) '\n'⟩ ::
      parse_text_loop c (offset + strchr_idx (c.drop offset) '\n' + 1) (n + 1)

/-- Embedding of `gemini_document_parse_text`: one iteration per line
break counted in the content. -/
def gemini_document_parse_text (c : List Char) : List gemtext_line_t :=
  parse_text_loop c 0 (count_ch c '\n')

/-- Number of lines of a buffer as the claim counts them: the segments
obtained by splitting at newlines (for comparison with the code). -/
def claimed_num_lines (c : List Char) : Nat := (c.splitOn '\n').length

example : gemini_document_parse_gemtext "A\n\n\nB".toList =
    [⟨.paragraph, 0, 0⟩, ⟨.paragraph, 4, 4⟩] := by decide

example : gemini_document_parse_text "A\nB".toList = [⟨.preformatted, 0, 3⟩] := by decide

example : gemini_document_parse_text "A\nB\n".toList =
    [⟨.preformatted, 0, 1⟩, ⟨.preformatted, 2, 4⟩] := by decide

example : get_gemtext_type_from_line "#a#".toList 0 = .heading_three := by decide

example : gemini_document_parse_gemtext "```\nX\n\nY".toList =
    [⟨.preformatted, 0, 2⟩, ⟨.preformatted, 4, 4⟩, ⟨.preformatted, 6, 5⟩,
     ⟨.preformatted, 7, 7⟩] := by decide

/-! ## Growable byte buffer (dynamic_array.c)

The C array stores a header (length, capacity, item size) in front of
the data; here it is a structure with the same attributes.  The backing
memory of `capacity` slots is modelled as a total function `items` on
positions (reading an uninitialized slot returns whatever is there, as
in C); the meaningful data is the prefix of the first `length`
positions, extracted by `dyn_array_contents`. -/

structure dyn_array (α : Type) where
  length : Nat
  capacity : Nat
  items : Nat → α

/-- Embedding of `dyn_array_create`: a fresh array of the requested
capacity with zero length; the uninitialized slots are passed in as
`junk` (C `malloc` yields arbitrary bytes). -/
def dyn_array_create (α : Type) (initial_capacity : Nat) (junk : Nat → α) : dyn_array α :=
  ⟨0, initial_capacity, junk⟩

/-- Embedding of `dyn_array_resize_to_fit`: when the requested total
exceeds the capacity, the capacity becomes `max total (2 * capacity)`
and the data is relocated (realloc preserves the stored bytes, so
`items` is unchanged); otherwise the array is returned as is. -/
def dyn_array_resize_to_fit (a : dyn_array α) (total_items : Nat) : dyn_array α :=
  if a.capacity < total_items then
    { a with capacity := max total_items (2 * a.capacity) }
  else a

/-- Embedding of `dyn_array_prepare_new_item`: the length is
incremented first and the array then resized to fit it. -/
def dyn_array_prepare_new_item (a : dyn_array α) : dyn_array α :=
  dyn_array_resize_to_fit { a with length := a.length + 1 } (a.length + 1)

/-- Stored data of the array: the `length`-long prefix of the backing
memory. -/
def dyn_array_contents (a : dyn_array α) : List α :=
  (List.range a.length).map a.items

/-- Modelled from the spec: `dyn_array_append_buffer` is declared in
dynamic_array.h (copy the buffer into the array, incrementing the
length, resizing if needed) but its body is not among the sources; per
§4.1 `append(buffer, data, count)` ensures capacity for
`length + count` items, copies them after the stored prefix and adds
`count` to the length. -/
def dyn_array_append_buffer [Inhabited α] (a : dyn_array α) (buffer : List α) : dyn_array α :=
  let a2 := dyn_array_resize_to_fit a (a.length + buffer.length)
  { length := a.length + buffer.length
    capacity := a2.capacity
    items := fun i =>
      if a.length ≤ i ∧ i < a.length + buffer.length then buffer.getD (i - a.length) default
      else a.items i }

/-! ## URL utilities (common.c) and link resolution (browser.c)

URLs are NUL-free `List Char` strings. -/

/-- Embedding of `has_protocol_scheme`: a colon occurs among the first
eight characters (the C loop stops at the NUL or at index 8). -/
def has_protocol_scheme (url : List Char) : Bool :=
  (url.take 8).contains ':'

/-- Embedding of `get_hostname_length`: find the first colon, skip the
two scheme slashes (`colon + 3`), and return the index of the next
slash, or the whole length when there is none.  Defined (like the C
code) only when the colon exists and `colon + 3` does not pass the
terminator; the theorems assume as much. -/
def get_hostname_length (url : List Char) : Nat :=
  let colon := strchr_idx url ':'
  let rest := url.drop (colon + 3)
  let s := strchr_idx rest '/'
  if s < rest.length then colon + 3 + s else url.length

/-- Embedding of `join_strings_together`: concatenation of the given
prefixes of the two strings. -/
def join_strings_together (first : List Char) (first_len : Nat)
    (second : List Char) (second_len : Nat) : List Char :=
  first.take first_len ++ second.take second_len

/-- Downward scan of `join_relative_link_to_url`: the greatest index
`i` with `1 ≤ i ≤ n` holding a slash (the C loop reads `url[i]`
starting at the NUL index, which `chAt` reproduces), or `none` when the
scan reaches index 0 without finding one. -/
def last_slash_scan (url : List Char) : Nat → Option Nat
  | 0 => none
  | i + 1 => if chAt url (i + 1) = '/' then some (i + 1) else last_slash_scan url i

/-- Embedding of `join_relative_link_to_url`.  A link starting with a
slash is joined to the hostname prefix of the current URL; otherwise
the current URL is cut just after its last slash.  When the downward
scan finds no slash the C function ends without returning a value
(undefined behaviour), modelled as `none`. -/
def join_relative_link_to_url (current_url link : List Char) : Option (List Char) :=
  if chAt link 0 = '/' then
    some (join_strings_together current_url (get_hostname_length current_url) link link.length)
  else
    match last_slash_scan current_url current_url.length with
    | some i => some (join_strings_together current_url (i + 1) link link.length)
    | none => none

/-- Link resolution as performed by `gemini_browser_get_link_under_cursor`
(the newer browser.c): a link that already carries a protocol scheme is
used verbatim, anything else is joined to the current URL. -/
def resolve_link (current_url link : List Char) : Option (List Char) :=
  if has_protocol_scheme link then some link
  else join_relative_link_to_url current_url link

example : resolve_link "gemini://x.org/a/b.gmi".toList "/c".toList =
    some "gemini://x.org/c".toList := by decide

example : resolve_link "gemini://x.org/a/b.gmi".toList "c.gmi".toList =
    some "gemini://x.org/a/c.gmi".toList := by decide

example : resolve_link "gemini://x.org/a/b.gmi".toList "https://y.org".toList =
    some "https://y.org".toList := by decide

/-! ## Response-header reading and the status-2 content dispatch
(gemini_fetch_document, newer gemini.c) -/

/-- Ends-with-CRLF test of the header loop:
`header_length >= 2 && io_buffer[header_length-2] == '\r' && io_buffer[header_length-1] == '\n'`. -/
def ends_with_crlf (l : List Char) : Bool :=
  decide (2 ≤ l.length) && (chAt l (l.length - 2) = '\r') && (chAt l (l.length - 1) = '\n')

/-- Header loop of `gemini_fetch_document`: one byte is read at a time
into the buffer; the loop stops when the stream is exhausted
(`SSL_read` returns 0) or when the accumulated bytes end with CR LF.
`acc` is the buffer contents accumulated so far. -/
def read_header_loop (acc : List Char) : List Char → List Char
  | [] => acc
  | b :: rest =>
    if ends_with_crlf (acc ++ [b]) then acc ++ [b]
    else read_header_loop (acc ++ [b]) rest

/-- Header bytes consumed from the stream by the header loop. -/
def read_header (stream : List Char) : List Char := read_header_loop [] stream

/-- Header-parse-failure test of the fetch:
`if (header_length < 4) { error = GEMINI_HEADER_PARSING_FAILURE; ... }`. -/
def header_failed (stream : List Char) : Bool :=
  (read_header stream).length < 4

/-- Outcome of the status-2 branch of the fetch. -/
inductive content_outcome
  | collect_gemtext
  | collect_raw
  | not_text
deriving DecidableEq, Repr

/-- C `strncmp(a, pat, pat.length) == 0` for NUL-free strings: the
first `pat.length` characters agree (a shorter `a` ends in NUL, which
never matches a pattern byte, and `List.take` fails the equality the
same way). -/
def strncmp_eq (a pat : List Char) : Bool :=
  a.take pat.length = pat.take pat.length

/-- Status-2 content dispatch of `gemini_fetch_document`:
`is_gemini = (header_length < 6 || !strncmp(meta, "text/gemini", 9))`,
`is_text  = !strncmp(meta, "text", 4)`; textual content is collected and
parsed as gemtext or raw text, anything else is `GEMINI_NOT_TEXT` and
no body is collected. -/
def status2_dispatch (header_length : Nat) (meta : List Char) : content_outcome :=
  let is_gemini := decide (header_length < 6) || strncmp_eq meta ("text/gemini".toList.take 9)
  let is_text := strncmp_eq meta "text".toList
  if is_text then
    if is_gemini then .collect_gemtext else .collect_raw
  else .not_text

example : status2_dispatch 15 "text/gemini".toList = .collect_gemtext := by decide
example : status2_dispatch 15 "text/gemix".toList = .collect_gemtext := by decide
example : status2_dispatch 15 "text/plain".toList = .collect_raw := by decide
example : status2_dispatch 15 "image/png".toList = .not_text := by decide
example : status2_dispatch 5 "zzzz".toList = .not_text := by decide

/-! ## Resource trace of a single `gemini_fetch_document` call
(newer gemini.c)

The network is abstracted by `fetch_env`: the outcome of
`create_ordinary_tcp_connection`, the outcome of `SSL_connect`, and the
bytes the header read will deliver.  `gemini_fetch_events` records, in
program order, the resource-relevant events of one invocation; a
redirect or input continuation is recorded as a `recurse_fetch` event
(the recursive call opens its own connection). -/

/-- Outcome of `create_ordinary_tcp_connection`: DNS failure returns -1
before any socket exists; a connect failure returns -1 after the socket
`fd` was created (the fd is not closed by the callee); success returns
the socket `fd`. -/
inductive conn_outcome
  | resolve_fail
  | connect_fail (fd : Nat)
  | conn_ok (fd : Nat)
deriving DecidableEq, Repr

structure fetch_env where
  conn : conn_outcome
  tls_ok : Bool
  header_stream : List Char
deriving DecidableEq, Repr

inductive fetch_event
  | ssl_new
  | socket_created (fd : Nat)
  | ssl_shutdown
  | ssl_free
  | close_fd (fd : Int)
  | recurse_fetch
  | collect_body
deriving DecidableEq, Repr

/-- The `%2s` conversion of `sscanf(io_buffer, "%2s %s\r\n", ...)`:
skip whitespace, then at most two non-whitespace characters. -/
def parsed_status (hdr : List Char) : List Char :=
  ((hdr.dropWhile isspace_c).takeWhile (fun ch => !isspace_c ch)).take 2

/-- The `%s` conversion following it: skip whitespace after the status
token, then the next non-whitespace run.  When the conversion fails the
C buffer `meta` stays indeterminate; the model returns `[]` (an empty
token), which like any garbage fails the `text` prefix tests. -/
def parsed_meta (hdr : List Char) : List Char :=
  (((hdr.dropWhile isspace_c).drop (parsed_status hdr).length).dropWhile isspace_c).takeWhile
    (fun ch => !isspace_c ch)

/-- Cleanup epilogue run on every exit of `gemini_fetch_document`:
`SSL_shutdown(ssl); SSL_free(ssl); close(connection);`. -/
def fetch_cleanup (connection : Int) : List fetch_event :=
  [.ssl_shutdown, .ssl_free, .close_fd connection]

/-- Resource events of one `gemini_fetch_document` invocation.
`SSL_new` runs first; the TCP connection is attempted (on a connect
failure the created socket's fd is lost, the caller only receives -1);
then the TLS handshake, the header read, and the status dispatch, each
failure jumping to the shared cleanup.  Statuses 1 and 3 clean up and
recurse; status 2 collects the body when the meta is textual. -/
def gemini_fetch_events (env : fetch_env) : List fetch_event :=
  fetch_event.ssl_new ::
    match env.conn with
    | .resolve_fail => fetch_cleanup (-1)
    | .connect_fail fd => .socket_created fd :: fetch_cleanup (-1)
    | .conn_ok fd =>
      .socket_created fd ::
        if !env.tls_ok then fetch_cleanup fd
        else
          let hdr := read_header env.header_stream
          if hdr.length < 4 then fetch_cleanup fd
          else
            let s0 := chAt (parsed_status hdr) 0
            if s0 = '1' ∨ s0 = '3' then fetch_cleanup fd ++ [.recurse_fetch]
            else if s0 = '2' then
              match status2_dispatch hdr.length (parsed_meta hdr) with
              | .collect_gemtext => .collect_body :: fetch_cleanup fd
              | .collect_raw => .collect_body :: fetch_cleanup fd
              | .not_text => fetch_cleanup fd
            else fetch_cleanup fd

example : gemini_fetch_events ⟨.connect_fail 5, true, []⟩ =
    [.ssl_new, .socket_created 5, .ssl_shutdown, .ssl_free, .close_fd (-1)] := by decide

example : gemini_fetch_events ⟨.conn_ok 5, true, "20 text/gemini\r\n".toList⟩ =
    [.ssl_new, .socket_created 5, .collect_body, .ssl_shutdown, .ssl_free, .close_fd 5] := by
  decide

example : gemini_fetch_events ⟨.conn_ok 7, true, "31 gemini://other.org/\r\n".toList⟩ =
    [.ssl_new, .socket_created 7, .ssl_shutdown, .ssl_free, .close_fd 7, .recurse_fetch] := by
  decide

/-! ## C1: line classification -/

/-- Line classifier as the specification words it (for comparison with
the code): `>` blockquote, `*` list-item, the three-character prefix
`###` heading-3, `##` heading-2, `#` alone heading-1, `=>` link,
a triple-backquote prefix preformatted, else paragraph. -/
def claimed_gemtext_type (line : List Char) : gemtext_line_e :=
  if line.take 1 = ['>'] then .blockquote
  else if line.take 1 = ['*'] then .list_item
  else if line.take 3 = ['#', '#', '#'] then .heading_three
  else if line.take 2 = ['#', '#'] then .heading_two
  else if line.take 1 = ['#'] then .heading_one
  else if line.take 2 = ['=', '>'] then .link
  else if line.take 3 = [backquote, backquote, backquote] then .preformatted
  else .paragraph

/-- Classifier behaviour restated over the line as a list: the heading
rules test the characters at positions 1 and 2 (position 1 merely has
to exist), so the prefix `#a#` is heading-3 as well. -/
def amended_gemtext_type (line : List Char) : gemtext_line_e :=
  if line.take 1 = ['>'] then .blockquote
  else if line.take 1 = ['*'] then .list_item
  else if line.take 1 = ['#'] then
    if line.get? 2 = some '#' then .heading_three
    else if line.get? 1 = some '#' then .heading_two
    else .heading_one
  else if line.take 2 = ['=', '>'] then .link
  else if line.take 3 = [backquote, backquote, backquote] then .preformatted
  else .paragraph

/-- Claim C1 fails on the code: the line `#a#` matches none of the
prefixes `###`, `##`-alone or the others beyond the leading `#`, so the
spec's table classifies it heading-1, but `get_gemtext_type_from_line`
returns heading-3 (its heading test reads `line[2]` without requiring
`line[1] == '#'`). -/
theorem C1_counterexample :
    get_gemtext_type_from_line "#a#".toList 0 = .heading_three ∧
    claimed_gemtext_type "#a#".toList = .heading_one ∧
    gemtext_line_e.heading_three ≠ .heading_one := by
  decide

/-- Reading a buffer at `i` gives a non-NUL `x` exactly when the stored
character there is `x`. -/
theorem chAt_eq_iff_get? (l : List Char) (i : Nat) (x : Char) (hx : x ≠ nul_char) :
    chAt l i = x ↔ l.get? i = some x := by
  unfold chAt
  rw [List.getD_eq_getD_get?]
  cases h : l.get? i with
  | none =>
    simp only [Option.getD_none, Option.some.injEq]
    exact ⟨fun he => absurd he.symm hx, fun he => by cases he⟩
  | some a =>
    simp only [Option.getD_some, Option.some.injEq]

/-- Reading a NUL-free buffer inside its length never gives NUL. -/
theorem chAt_ne_nul (l : List Char) (i : Nat) (hl : nul_char ∉ l) (hi : i < l.length) :
    chAt l i ≠ nul_char := by
  unfold chAt
  rw [List.getD_eq_getD_get?, List.get?_eq_get hi]
  simp only [Option.getD_some]
  intro he
  exact hl (he ▸ List.get_mem l _ _)

/-- Reading past an empty buffer gives NUL. -/
theorem chAt_nil (i : Nat) : chAt [] i = nul_char := by cases i <;> rfl

/-- Reading the head of a buffer. -/
theorem chAt_cons_zero (a : Char) (l : List Char) : chAt (a :: l) 0 = a := rfl

/-- Reading a later position of a buffer steps past the head. -/
theorem chAt_cons_succ (a : Char) (l : List Char) (i : Nat) :
    chAt (a :: l) (i + 1) = chAt l i := rfl

/-- Amended claim C1 (corrected): on any NUL-free line, the classifier
follows the spec's table except for headings, where any line whose
first character is `#` and whose third character is `#` is heading-3
(the second character only has to exist), `##` not followed by `#` is
heading-2, and any other `#` line is heading-1. -/
theorem C1_heading_classification_amended (line : List Char) (hl : nul_char ∉ line) :
    get_gemtext_type_from_line line 0 = amended_gemtext_type line := by
  have k1 : ¬ nul_char = '#' := by decide
  have k2 : ¬ nul_char = '>' := by decide
  have k3 : ¬ nul_char = backquote := by decide
  match line with
  | [] => decide
  | [a] =>
    simp [get_gemtext_type_from_line, amended_gemtext_type, matches_at,
      chAt_cons_zero, chAt_cons_succ, chAt_nil, k1, k2, k3]
  | [a, b] =>
    have hb : b ≠ nul_char := fun he => hl (by simp [he])
    simp [get_gemtext_type_from_line, amended_gemtext_type, matches_at,
      chAt_cons_zero, chAt_cons_succ, chAt_nil, k1, k2, k3, hb]
  | a :: b :: c :: rest =>
    have hb : b ≠ nul_char := fun he => hl (by simp [he])
    simp [get_gemtext_type_from_line, amended_gemtext_type, matches_at,
      chAt_cons_zero, chAt_cons_succ, chAt_nil, k1, k2, k3, hb]

/-- Witness for the amended claim C1 at the concrete line `#a#`. -/
theorem C1_witness :
    get_gemtext_type_from_line "#a#".toList 0 = amended_gemtext_type "#a#".toList :=
  C1_heading_classification_amended "#a#".toList (by decide)

/-! ## C2: preformatted forcing and blank-line elision -/

/-- Inside an open preformatted block the recorded type is always
preformatted: a fence line keeps its own preformatted type, every
other line is overwritten. -/
theorem gemtext_line_type_pre (c : List Char) (off : Nat) :
    gemtext_line_type c off true = .preformatted := by
  unfold gemtext_line_type
  split <;> simp

/-- Claim C2 (confirmed): from any state with the preformatted block
open, the next emitted element has type preformatted whatever its
prefix (so by induction along the loop every line emitted while the
state is open does); a blank line inside a preformatted block still
produces an (empty) preformatted element, as the `\x60\x60\x60`/X/blank/Y
example shows; and outside preformatted mode the whitespace runs of
`A\n\n\nB` produce no element, leaving exactly the two paragraphs. -/
theorem C2_preformatted_forcing :
    (∀ (fuel : Nat) (c : List Char) (offset : Nat) (e : gemtext_line_t)
        (rest : List gemtext_line_t),
        gemtext_loop fuel c offset true = e :: rest → e.type = .preformatted) ∧
    gemini_document_parse_gemtext "```\nX\n\nY".toList =
      [⟨.preformatted, 0, 2⟩, ⟨.preformatted, 4, 4⟩, ⟨.preformatted, 6, 5⟩,
       ⟨.preformatted, 7, 7⟩] ∧
    gemini_document_parse_gemtext "A\n\n\nB".toList =
      [⟨.paragraph, 0, 0⟩, ⟨.paragraph, 4, 4⟩] := by
  refine ⟨?_, by decide, by decide⟩
  intro fuel c offset e rest h
  match fuel with
  | 0 => simp [gemtext_loop] at h
  | f + 1 =>
    simp only [gemtext_loop] at h
    split at h
    · split at h
      · cases h
      · split at h
        · cases h
          exact gemtext_line_type_pre ..
        · cases h
          exact gemtext_line_type_pre ..
    · cases h

/-- Witness for claim C2: the loop on the one-byte buffer `X` with the
preformatted state open emits that line as preformatted. -/
theorem C2_witness : (gemtext_line_t.mk .preformatted 0 0).type = .preformatted :=
  C2_preformatted_forcing.1 2 ['X'] 0 ⟨.preformatted, 0, 0⟩ [] (by decide)

/-! ## C10: termination and output size of the gemtext parse -/

/-- The element start never precedes the scan offset. -/
theorem gemtext_step_start_ge (c : List Char) (offset : Nat) (pre : Bool) :
    offset ≤ gemtext_step_start c offset pre := by
  unfold gemtext_step_start
  split
  · exact Nat.le_refl _
  · exact Nat.le_add_right _ _

/-- The end scan never moves left of its starting point. -/
theorem scan_stop_ge (c : List Char) (start : Nat) (h : start < c.length) :
    start ≤ scan_stop c start := by
  unfold scan_stop
  exact le_min (Nat.le_add_right _ _) (by omega)

/-- Any fuel beyond the remaining buffer size computes the same parse:
the C loop needs at most one iteration per remaining byte because the
scan offset strictly increases. -/
theorem gemtext_loop_fuel_irrelevant (f1 f2 : Nat) (c : List Char) (offset : Nat) (pre : Bool)
    (h1 : c.length - offset < f1) (h2 : c.length - offset < f2) :
    gemtext_loop f1 c offset pre = gemtext_loop f2 c offset pre := by
  induction f1 generalizing f2 offset pre with
  | zero => omega
  | succ g ih =>
    match f2 with
    | 0 => omega
    | k + 1 =>
      simp only [gemtext_loop]
      split
      next hlt =>
        split
        next => rfl
        next hst =>
          split
          next => rfl
          next hsp =>
            have hs1 : offset ≤ gemtext_step_start c offset pre := gemtext_step_start_ge ..
            have hs2 : gemtext_step_start c offset pre ≤
                scan_stop c (gemtext_step_start c offset pre) :=
              scan_stop_ge _ _ (by omega)
            congr 1
            apply ih
            · omega
            · omega
      next => rfl

/-- The loop emits at most one element per remaining content byte. -/
theorem gemtext_loop_length_le (fuel : Nat) (c : List Char) (offset : Nat) (pre : Bool)
    (h : c.length - offset < fuel) :
    (gemtext_loop fuel c offset pre).length ≤ c.length - offset := by
  induction fuel generalizing offset pre with
  | zero => omega
  | succ g ih =>
    simp only [gemtext_loop]
    split
    next hlt =>
      split
      next => simp
      next hst =>
        have hs1 : offset ≤ gemtext_step_start c offset pre := gemtext_step_start_ge ..
        have hs2 : gemtext_step_start c offset pre ≤
            scan_stop c (gemtext_step_start c offset pre) :=
          scan_stop_ge _ _ (by omega)
        split
        next => simp; omega
        next hsp =>
          have hrec := ih (scan_stop c (gemtext_step_start c offset pre) + 1)
            (gemtext_next_pre c (gemtext_step_start c offset pre) pre) (by omega)
          simp only [List.length_cons]
          omega
    next => simp

/-- Claim C10 (confirmed): the gemtext parse is a total function of the
content — adding any amount of fuel beyond the entry amount changes
nothing, which is the C termination argument (each iteration ends the
scan or strictly advances the offset) — and it emits at most one
element per content byte. -/
theorem C10_parse_gemtext_total (c : List Char) :
    (∀ extra : Nat,
      gemtext_loop (c.length + 1 + extra) c 0 false = gemini_document_parse_gemtext c) ∧
    (gemini_document_parse_gemtext c).length ≤ c.length := by
  constructor
  · intro extra
    exact gemtext_loop_fuel_irrelevant _ _ _ _ _ (by omega) (by omega)
  · have h := gemtext_loop_length_le (c.length + 1) c 0 false (by omega)
    simpa using h

/-! ## C8: raw-text mode -/

/-- The raw-text loop emits exactly its requested number of elements. -/
theorem parse_text_loop_length (c : List Char) (n offset : Nat) :
    (parse_text_loop c offset n).length = n := by
  induction n generalizing offset with
  | zero => rfl
  | succ m ih =>
    match m with
    | 0 => rfl
    | k + 1 =>
      simp only [parse_text_loop, List.length_cons]
      rw [ih]

/-- Every element the raw-text loop emits is preformatted. -/
theorem parse_text_loop_all_pre (c : List Char) (n offset : Nat) (e : gemtext_line_t)
    (he : e ∈ parse_text_loop c offset n) : e.type = .preformatted := by
  induction n generalizing offset with
  | zero => cases he
  | succ m ih =>
    match m with
    | 0 =>
      simp only [parse_text_loop, List.mem_singleton] at he
      rw [he]
    | k + 1 =>
      simp only [parse_text_loop, List.mem_cons] at he
      rcases he with he | he
      · rw [he]
      · exact ih _ he

/-- Claim C8 fails on the code: the buffer `A\nB` has two lines but the
raw-text parse emits a single element, spanning both lines (its end is
the logical length, past the newline). -/
theorem C8_counterexample :
    gemini_document_parse_text "A\nB".toList = [⟨.preformatted, 0, 3⟩] ∧
    claimed_num_lines "A\nB".toList = 2 ∧
    (gemini_document_parse_text "A\nB".toList).length ≠ 2 := by decide

/-- Amended claim C8 (corrected): raw-text mode emits exactly one
preformatted element per newline character (not per line), in source
order; each non-final element ends at its own newline's index and the
final element ends at the logical length, absorbing any text after the
last newline, as the `A\nB\n` example shows. -/
theorem C8_raw_text_amended :
    (∀ c : List Char, (gemini_document_parse_text c).length = count_ch c '\n') ∧
    (∀ (c : List Char) (e : gemtext_line_t),
      e ∈ gemini_document_parse_text c → e.type = .preformatted) ∧
    gemini_document_parse_text "A\nB\n".toList =
      [⟨.preformatted, 0, 1⟩, ⟨.preformatted, 2, 4⟩] := by
  refine ⟨fun c => parse_text_loop_length c (count_ch c '\n') 0,
    fun c e he => parse_text_loop_all_pre c (count_ch c '\n') 0 e he, by decide⟩

/-- Witness for the amended claim C8 at `A\nB\n` and its first
element. -/
theorem C8_witness : (gemtext_line_t.mk .preformatted 0 1).type = .preformatted :=
  C8_raw_text_amended.2.1 "A\nB\n".toList ⟨.preformatted, 0, 1⟩ (by decide)

/-! ## C6: resource cleanup of the fetch -/

/-- Claim C6 meets a code bug: when `connect()` fails,
`create_ordinary_tcp_connection` has already created a socket (fd 5
here) but returns -1 without closing it, so the fetch epilogue closes
-1 and the real socket is never closed — the connection-failure
terminal path leaks its socket instead of closing it exactly once. -/
theorem C6_socket_leak_on_connect_failure :
    gemini_fetch_events ⟨.connect_fail 5, true, []⟩ =
      [.ssl_new, .socket_created 5, .ssl_shutdown, .ssl_free, .close_fd (-1)] ∧
    fetch_event.socket_created 5 ∈ gemini_fetch_events ⟨.connect_fail 5, true, []⟩ ∧
    fetch_event.close_fd 5 ∉ gemini_fetch_events ⟨.connect_fail 5, true, []⟩ := by
  decide

/-! ## C5: status-2 content dispatch -/

/-- Claim C5 fails on the code: `text/gemix` is a textual MIME type
other than text/gemini, so per the claim it should select raw-text
parsing, but the code's 9-byte `strncmp` only compares `text/gemi` and
selects gemtext parsing. -/
theorem C5_counterexample :
    status2_dispatch 15 "text/gemix".toList = .collect_gemtext ∧
    "text/gemix".toList ≠ "text/gemini".toList ∧
    content_outcome.collect_gemtext ≠ .collect_raw := by decide

/-- Amended claim C5 (corrected): on a status-2 response the body is
collected exactly when the meta buffer starts with `text` (otherwise
the not-text terminal status is set with no body collected); among
collected bodies, gemtext parsing is selected exactly when the header
is shorter than 6 bytes (the empty-meta default) or the meta's first
nine bytes are `text/gemi`, and raw-text parsing otherwise. -/
theorem C5_status2_dispatch_amended (header_length : Nat) (meta : List Char) :
    (status2_dispatch header_length meta = .not_text ↔ meta.take 4 ≠ "text".toList) ∧
    (status2_dispatch header_length meta = .collect_gemtext ↔
      meta.take 4 = "text".toList ∧
        (header_length < 6 ∨ meta.take 9 = "text/gemi".toList)) ∧
    (status2_dispatch header_length meta = .collect_raw ↔
      meta.take 4 = "text".toList ∧ 6 ≤ header_length ∧
        meta.take 9 ≠ "text/gemi".toList) := by
  have e1 : strncmp_eq meta "text".toList = decide (meta.take 4 = "text".toList) := rfl
  have e2 : strncmp_eq meta ("text/gemini".toList.take 9) =
      decide (meta.take 9 = "text/gemi".toList) := rfl
  simp only [status2_dispatch]
  rw [e1, e2]
  simp only [Bool.or_eq_true, decide_eq_true_eq]
  by_cases ht : meta.take 4 = "text".toList <;>
    by_cases h6 : header_length < 6 <;>
    by_cases hg : meta.take 9 = "text/gemi".toList <;>
    simp only [ht, h6, hg, if_true, if_false, ite_true, ite_false, or_true, or_false,
      true_or, false_or, iff_true, iff_false, not_true, not_false_iff] <;>
    simp_all

/-! ## C3: element order and boundary invariants -/

/-- The end scan never passes the last byte index. -/
theorem scan_stop_le (c : List Char) (start : Nat) : scan_stop c start ≤ c.length - 1 :=
  Nat.min_le_right _ _

/-- When `ch` occurs in `l`, `strchr_idx` lands inside `l`. -/
theorem strchr_idx_lt_of_count_pos (l : List Char) (ch : Char) (h : 1 ≤ count_ch l ch) :
    strchr_idx l ch < l.length := by
  induction l with
  | nil => simp [count_ch] at h
  | cons a r ih =>
    simp only [strchr_idx, count_ch, List.length_cons]
    split
    next => omega
    next ha =>
      have hr : 1 ≤ count_ch r ch := by
        simp only [count_ch, if_neg ha] at h
        omega
      have := ih hr
      omega

/-- Occurrences of `ch` past its first occurrence: one fewer than in
the whole list. -/
theorem count_ch_drop_strchr (l : List Char) (ch : Char) (h : 1 ≤ count_ch l ch) :
    count_ch l ch = count_ch (l.drop (strchr_idx l ch + 1)) ch + 1 := by
  induction l with
  | nil => simp [count_ch] at h
  | cons a r ih =>
    by_cases hac : a = ch
    · simp [count_ch, strchr_idx, hac]
      omega
    · have hr : 1 ≤ count_ch r ch := by
        simp only [count_ch, if_neg hac] at h
        omega
      simp only [count_ch, strchr_idx, if_neg hac, List.drop_succ_cons, Nat.zero_add]
      exact ih hr

/-- Loop invariant of the gemtext parse: every element starts at or
after the scan offset and inside the buffer, ends inside the buffer,
and consecutive elements are strictly ordered without overlap. -/
theorem gemtext_loop_ordered (fuel : Nat) (c : List Char) (offset : Nat) (pre : Bool)
    (h : c.length - offset < fuel) :
    (∀ e ∈ gemtext_loop fuel c offset pre,
      offset ≤ e.start ∧ e.start < c.length ∧ e.end_ < c.length) ∧
    List.Chain' (fun e1 e2 => e1.start < e2.start ∧ e1.end_ < e2.start)
      (gemtext_loop fuel c offset pre) := by
  induction fuel generalizing offset pre with
  | zero => omega
  | succ g ih =>
    simp only [gemtext_loop]
    split
    next hlt =>
      split
      next hst => simp
      next hst =>
        have hs1 : offset ≤ gemtext_step_start c offset pre := gemtext_step_start_ge ..
        have hs2 : gemtext_step_start c offset pre ≤
            scan_stop c (gemtext_step_start c offset pre) := scan_stop_ge _ _ (by omega)
        have hs3 : scan_stop c (gemtext_step_start c offset pre) ≤ c.length - 1 :=
          scan_stop_le ..
        split
        next hsp =>
          constructor
          · intro e he
            simp only [List.mem_singleton] at he
            rcases he with rfl
            refine ⟨?_, ?_, ?_⟩ <;> dsimp only <;> omega
          · simp
        next hsp =>
          obtain ⟨ihm, ihc⟩ := ih (scan_stop c (gemtext_step_start c offset pre) + 1)
            (gemtext_next_pre c (gemtext_step_start c offset pre) pre) (by omega)
          constructor
          · intro e he
            simp only [List.mem_cons] at he
            rcases he with rfl | he
            · refine ⟨?_, ?_, ?_⟩ <;> dsimp only <;> omega
            · obtain ⟨h1, h2, h3⟩ := ihm e he
              exact ⟨by omega, h2, h3⟩
          · rw [List.chain'_cons']
            refine ⟨?_, ihc⟩
            intro y hy
            obtain ⟨h1, h2, h3⟩ := ihm y (List.mem_of_mem_head? hy)
            constructor <;> dsimp only <;> omega
    next hlt => simp

/-- Loop invariant of the raw-text parse: with at least `n` line breaks
remaining past `offset`, the `n` elements emitted start at or after the
offset and inside the buffer, end at or before the logical length, and
are strictly ordered without overlap. -/
theorem parse_text_loop_ordered (c : List Char) (n : Nat) :
    ∀ offset, n ≤ count_ch (c.drop offset) '\n' →
    (∀ e ∈ parse_text_loop c offset n,
      offset ≤ e.start ∧ e.start < c.length ∧ e.end_ ≤ c.length) ∧
    List.Chain' (fun e1 e2 => e1.start < e2.start ∧ e1.end_ < e2.start)
      (parse_text_loop c offset n) := by
  induction n using Nat.strong_induction_on with
  | _ n ih =>
    intro offset hn
    match n with
    | 0 => simp [parse_text_loop]
    | 1 =>
      have hne : c.drop offset ≠ [] := by
        intro he
        rw [he] at hn
        simp [count_ch] at hn
      have hoff : offset < c.length := by
        by_contra hco
        exact hne (List.drop_eq_nil_iff.mpr (by omega))
      constructor
      · intro e he
        simp only [parse_text_loop, List.mem_singleton] at he
        rcases he with rfl
        refine ⟨?_, ?_, ?_⟩ <;> dsimp only <;> omega
      · simp [parse_text_loop]
    | k + 2 =>
      have hfound : strchr_idx (c.drop offset) '\n' < (c.drop offset).length :=
        strchr_idx_lt_of_count_pos _ _ (by omega)
      have hlen : (c.drop offset).length = c.length - offset := List.length_drop ..
      have hnl : offset + strchr_idx (c.drop offset) '\n' < c.length := by omega
      have hcount : count_ch (c.drop offset) '\n' =
          count_ch ((c.drop offset).drop (strchr_idx (c.drop offset) '\n' + 1)) '\n' + 1 :=
        count_ch_drop_strchr _ _ (by omega)
      have hdd2 : (c.drop offset).drop (strchr_idx (c.drop offset) '\n' + 1) =
          c.drop (offset + strchr_idx (c.drop offset) '\n' + 1) := by
        rw [List.drop_drop]
        congr 1
      rw [hdd2] at hcount
      obtain ⟨ihm, ihc⟩ := ih (k + 1) (by omega)
        (offset + strchr_idx (c.drop offset) '\n' + 1) (by omega)
      constructor
      · intro e he
        simp only [parse_text_loop, List.mem_cons] at he
        rcases he with rfl | he
        · refine ⟨?_, ?_, ?_⟩ <;> dsimp only <;> omega
        · obtain ⟨h1, h2, h3⟩ := ihm e he
          exact ⟨by omega, h2, h3⟩
      · simp only [parse_text_loop]
        rw [List.chain'_cons']
        refine ⟨?_, ihc⟩
        intro y hy
        obtain ⟨h1, h2, h3⟩ := ihm y (List.mem_of_mem_head? hy)
        constructor <;> dsimp only <;> omega

/-- Claim C3 fails on the code, in two ways.  In the gemtext parse of
the fence/X/blank/Y buffer the blank line inside the preformatted block
yields the record `(6, 5)` with `end = start - 1 < start`.  In the
raw-text parse of `A\n` the single record ends at offset 2, the logical
length itself (the NUL position), not strictly inside the content, and
its span `(0, 2)` includes the terminating newline. -/
theorem C3_counterexample :
    gemini_document_parse_gemtext "```\nX\n\nY".toList =
      [⟨.preformatted, 0, 2⟩, ⟨.preformatted, 4, 4⟩, ⟨.preformatted, 6, 5⟩,
       ⟨.preformatted, 7, 7⟩] ∧
    ¬((6 : Nat) ≤ 5) ∧
    gemini_document_parse_text "A\n".toList = [⟨.preformatted, 0, 2⟩] ∧
    "A\n".toList.length = 2 ∧ ¬((2 : Nat) < 2) := by
  decide

/-- Amended claim C3 (corrected): in both parse modes the elements are
emitted in strictly ascending start order and never overlap (each
element starts strictly after the previous element's end), every start
is a valid index into the content, and every end is at most the logical
length (strictly below it in gemtext mode; in raw-text mode only the
final element reaches it).  The original claim's `start ≤ end`,
`end < length` and newline-exclusion guarantees do not hold (see the
counterexample). -/
theorem C3_element_order_amended (c : List Char) :
    ((∀ e ∈ gemini_document_parse_gemtext c, e.start < c.length ∧ e.end_ < c.length) ∧
      List.Chain' (fun e1 e2 => e1.start < e2.start ∧ e1.end_ < e2.start)
        (gemini_document_parse_gemtext c)) ∧
    (∀ e ∈ gemini_document_parse_text c, e.start < c.length ∧ e.end_ ≤ c.length) ∧
    List.Chain' (fun e1 e2 => e1.start < e2.start ∧ e1.end_ < e2.start)
      (gemini_document_parse_text c) := by
  obtain ⟨hm, hc⟩ := gemtext_loop_ordered (c.length + 1) c 0 false (by omega)
  obtain ⟨hm2, hc2⟩ := parse_text_loop_ordered c (count_ch c '\n') 0
    (by rw [List.drop_zero])
  exact ⟨⟨fun e he => (hm e he).2, hc⟩, fun e he => (hm2 e he).2, hc2⟩

/-- Witness for the amended claim C3: the first paragraph of
`A\n\n\nB` lies inside the 5-byte content. -/
theorem C3_witness :
    (gemtext_line_t.mk .paragraph 0 0).start < "A\n\n\nB".toList.length ∧
    (gemtext_line_t.mk .paragraph 0 0).end_ < "A\n\n\nB".toList.length :=
  (C3_element_order_amended "A\n\n\nB".toList).1.1 ⟨.paragraph, 0, 0⟩ (by decide)

/-! ## C9: header reading -/

/-- Behaviour of the header loop from any buffer state that does not
already end in CR LF: it consumes a prefix of the stream, stopping
either at the first point where the buffer ends in CR LF or at stream
end, whichever comes first. -/
theorem read_header_loop_spec (s : List Char) :
    ∀ acc, ends_with_crlf acc = false →
    ∃ k, k ≤ s.length ∧ read_header_loop acc s = acc ++ s.take k ∧
      (ends_with_crlf (acc ++ s.take k) = true ∨ k = s.length) ∧
      ∀ j, j ≤ k → ends_with_crlf (acc ++ s.take j) = true → j = k := by
  induction s with
  | nil =>
    intro acc hacc
    refine ⟨0, Nat.le_refl _, by simp [read_header_loop], Or.inr rfl, ?_⟩
    intro j hj _
    omega
  | cons b rest ih =>
    intro acc hacc
    by_cases h2 : ends_with_crlf (acc ++ [b]) = true
    · refine ⟨1, by simp, ?_, ?_, ?_⟩
      · simp [read_header_loop, h2]
      · left
        simpa using h2
      · intro j hj hcrlf
        match j with
        | 0 =>
          rw [List.take_zero, List.append_nil] at hcrlf
          rw [hacc] at hcrlf
          cases hcrlf
        | 1 => rfl
    · have h2f : ends_with_crlf (acc ++ [b]) = false := by
        revert h2
        cases ends_with_crlf (acc ++ [b]) <;> simp
      obtain ⟨k, hk1, hk2, hk3, hk4⟩ := ih (acc ++ [b]) h2f
      refine ⟨k + 1, by simpa using hk1, ?_, ?_, ?_⟩
      · rw [show read_header_loop acc (b :: rest) = read_header_loop (acc ++ [b]) rest from
          by simp [read_header_loop, h2f]]
        rw [hk2]
        simp [List.take_cons]
      · rcases hk3 with hk3 | hk3
        · left
          rw [show acc ++ List.take (k + 1) (b :: rest) = acc ++ [b] ++ List.take k rest from
            by simp]
          exact hk3
        · right
          simp [hk3]
      · intro j hj hcrlf
        match j with
        | 0 =>
          rw [List.take_zero, List.append_nil] at hcrlf
          rw [hacc] at hcrlf
          cases hcrlf
        | j' + 1 =>
          rw [show acc ++ List.take (j' + 1) (b :: rest) = acc ++ [b] ++ List.take j' rest from
            by simp] at hcrlf
          have := hk4 j' (by omega) hcrlf
          omega

/-- Claim C9 fails on the code: the four-byte stream `20 x` ends without
any CR LF ever arriving, yet the fetch does not report a header-parse
failure (the loop only fails when fewer than 4 bytes were consumed). -/
theorem C9_counterexample :
    header_failed "20 x".toList = false ∧
    read_header "20 x".toList = "20 x".toList ∧
    (∀ i, i < 4 → ¬(chAt "20 x".toList i = '\r' ∧ chAt "20 x".toList (i + 1) = '\n')) := by
  decide

/-- Amended claim C9 (corrected): within the header buffer's faithful
region (streams of at most 1029 bytes, beyond which the C code would
overrun the buffer rather than fail), the header read consumes the
shortest stream prefix after which the buffer ends in CR LF — or the
whole stream when no such point exists — and the fetch reports
header-parse-failure exactly when fewer than 4 bytes were consumed; a
stream that ends without CR LF after four or more bytes is not
detected, and its bytes are parsed as a header. -/
theorem C9_header_read_amended (stream : List Char) (_hcap : stream.length ≤ 1029) :
    (header_failed stream = true ↔ (read_header stream).length < 4) ∧
    ∃ k, k ≤ stream.length ∧ read_header stream = stream.take k ∧
      (ends_with_crlf (stream.take k) = true ∨ k = stream.length) ∧
      ∀ j, j ≤ k → ends_with_crlf (stream.take j) = true → j = k := by
  constructor
  · simp [header_failed]
  · obtain ⟨k, h1, h2, h3, h4⟩ := read_header_loop_spec stream [] (by decide)
    simp only [List.nil_append] at h2 h3 h4
    exact ⟨k, h1, h2, h3, h4⟩

/-- Witness for the amended claim C9 at the stream `20 ok\r\n`. -/
theorem C9_witness :
    (header_failed "20 ok\r\n".toList = true ↔
      (read_header "20 ok\r\n".toList).length < 4) ∧
    ∃ k, k ≤ "20 ok\r\n".toList.length ∧
      read_header "20 ok\r\n".toList = "20 ok\r\n".toList.take k ∧
      (ends_with_crlf ("20 ok\r\n".toList.take k) = true ∨
        k = "20 ok\r\n".toList.length) ∧
      ∀ j, j ≤ k → ends_with_crlf ("20 ok\r\n".toList.take j) = true → j = k :=
  C9_header_read_amended "20 ok\r\n".toList (by decide)

/-! ## C4: relative-link resolution -/

/-- The index returned by `strchr_idx` never passes the end of the list. -/
theorem strchr_idx_le_length (l : List Char) (ch : Char) : strchr_idx l ch ≤ l.length := by
  induction l with
  | nil => simp [strchr_idx]
  | cons a r ih =>
    simp only [strchr_idx, List.length_cons]
    split
    next => omega
    next => omega

/-- A found `strchr_idx` position holds the sought character. -/
theorem strchr_idx_get (l : List Char) (ch : Char) (h : strchr_idx l ch < l.length) :
    l.get? (strchr_idx l ch) = some ch := by
  induction l with
  | nil => simp [strchr_idx] at h
  | cons a r ih =>
    by_cases hac : a = ch
    · simp [strchr_idx, hac]
    · simp only [strchr_idx, if_neg hac, List.length_cons] at h ⊢
      rw [List.get?_cons_succ]
      exact ih (by omega)

/-- No position before `strchr_idx` holds the sought character. -/
theorem strchr_idx_min (l : List Char) (ch : Char) (j : Nat) (hj : j < strchr_idx l ch) :
    l.get? j ≠ some ch := by
  induction l generalizing j with
  | nil => simp [strchr_idx] at hj
  | cons a r ih =>
    by_cases hac : a = ch
    · simp [strchr_idx, hac] at hj
    · simp only [strchr_idx, if_neg hac] at hj
      match j with
      | 0 =>
        simp only [List.get?_cons_zero, ne_eq, Option.some.injEq]
        exact hac
      | j' + 1 =>
        rw [List.get?_cons_succ]
        exact ih j' (by omega)

/-- A successful downward slash scan returns the greatest slash
position in `[1, n]`. -/
theorem last_slash_scan_some (url : List Char) :
    ∀ n i, last_slash_scan url n = some i →
      0 < i ∧ i ≤ n ∧ chAt url i = '/' ∧ ∀ j, i < j → j ≤ n → chAt url j ≠ '/' := by
  intro n
  induction n with
  | zero =>
    intro i h
    simp [last_slash_scan] at h
  | succ m ih =>
    intro i h
    simp only [last_slash_scan] at h
    split at h
    next hsl =>
      cases h
      refine ⟨by omega, Nat.le_refl _, hsl, ?_⟩
      intro j hj1 hj2
      omega
    next hsl =>
      obtain ⟨h1, h2, h3, h4⟩ := ih i h
      refine ⟨h1, by omega, h3, ?_⟩
      intro j hj1 hj2
      rcases Nat.lt_or_ge j (m + 1) with hlt | hge
      · exact h4 j hj1 (by omega)
      · rw [show j = m + 1 from by omega]
        exact hsl

/-- The downward slash scan succeeds whenever some positive position up
to `n` holds a slash. -/
theorem last_slash_scan_isSome (url : List Char) (i : Nat) (hi : 0 < i)
    (hsl : chAt url i = '/') : ∀ n, i ≤ n → (last_slash_scan url n).isSome := by
  intro n
  induction n with
  | zero => intro h; omega
  | succ m ih =>
    intro h
    simp only [last_slash_scan]
    split
    next => simp
    next hns =>
      apply ih
      have : i ≠ m + 1 := fun he => hns (he ▸ hsl)
      omega

/-- The hostname cut of `get_hostname_length`, characterized: it is
either the whole length, with no slash anywhere at or after
`colon + 3`, or the position of the first slash at or after
`colon + 3`.  The hypothesis renders the claim's "base containing a
scheme": the first colon sits with the two scheme slashes inside the
string, as in any `scheme://host` URL (the C `strchr(colon + 3, ...)`
is undefined otherwise). -/
theorem get_hostname_length_spec (base : List Char)
    (hc : strchr_idx base ':' + 3 ≤ base.length) :
    (get_hostname_length base = base.length ∧
      ∀ j, strchr_idx base ':' + 3 ≤ j → j < base.length → base.get? j ≠ some '/') ∨
    (get_hostname_length base < base.length ∧
      base.get? (get_hostname_length base) = some '/' ∧
      strchr_idx base ':' + 3 ≤ get_hostname_length base ∧
      ∀ j, strchr_idx base ':' + 3 ≤ j → j < get_hostname_length base →
        base.get? j ≠ some '/') := by
  have hrl : (base.drop (strchr_idx base ':' + 3)).length =
      base.length - (strchr_idx base ':' + 3) := List.length_drop ..
  simp only [get_hostname_length]
  split
  next hlt =>
    right
    have hg := strchr_idx_get (base.drop (strchr_idx base ':' + 3)) '/' hlt
    rw [List.get?_drop] at hg
    refine ⟨by omega, hg, by omega, ?_⟩
    intro j hj1 hj2
    have hmin := strchr_idx_min (base.drop (strchr_idx base ':' + 3)) '/'
      (j - (strchr_idx base ':' + 3)) (by omega)
    rw [List.get?_drop,
      show strchr_idx base ':' + 3 + (j - (strchr_idx base ':' + 3)) = j from by omega] at hmin
    exact hmin
  next hge =>
    left
    refine ⟨rfl, ?_⟩
    intro j hj1 hj2
    have hmin := strchr_idx_min (base.drop (strchr_idx base ':' + 3)) '/'
      (j - (strchr_idx base ':' + 3)) (by omega)
    rw [List.get?_drop,
      show strchr_idx base ':' + 3 + (j - (strchr_idx base ':' + 3)) = j from by omega] at hmin
    exact hmin

/-- Claim C4 (confirmed): for a base URL whose scheme separator lies
inside the string (`colon + 3 ≤ length`) and that holds a slash at some
positive position, link resolution behaves as claimed: a link with a
protocol scheme (a colon among its first eight characters) is used
verbatim; a link starting with `/` is appended to the base cut at
`get_hostname_length` — the first slash at or after the scheme
separator, or the whole base when there is none (see
`get_hostname_length_spec`, restated here) — and any other link is
appended to the base cut just after its last slash.  The two concrete
resolutions of the claim close the statement. -/
theorem C4_resolve_relative (base link : List Char)
    (hc : strchr_idx base ':' + 3 ≤ base.length)
    (hs : ∃ i, 0 < i ∧ base.get? i = some '/') :
    (has_protocol_scheme link = true → resolve_link base link = some link) ∧
    (has_protocol_scheme link = false → chAt link 0 = '/' →
      resolve_link base link = some (base.take (get_hostname_length base) ++ link)) ∧
    ((get_hostname_length base = base.length ∧
        ∀ j, strchr_idx base ':' + 3 ≤ j → j < base.length → base.get? j ≠ some '/') ∨
      (get_hostname_length base < base.length ∧
        base.get? (get_hostname_length base) = some '/' ∧
        strchr_idx base ':' + 3 ≤ get_hostname_length base ∧
        ∀ j, strchr_idx base ':' + 3 ≤ j → j < get_hostname_length base →
          base.get? j ≠ some '/')) ∧
    (has_protocol_scheme link = false → chAt link 0 ≠ '/' →
      ∃ i, 0 < i ∧ base.get? i = some '/' ∧
        (∀ j, i < j → j < base.length → base.get? j ≠ some '/') ∧
        resolve_link base link = some (base.take (i + 1) ++ link)) ∧
    resolve_link "gemini://x.org/a/b.gmi".toList "/c".toList =
      some "gemini://x.org/c".toList ∧
    resolve_link "gemini://x.org/a/b.gmi".toList "c.gmi".toList =
      some "gemini://x.org/a/c.gmi".toList := by
  refine ⟨?_, ?_, get_hostname_length_spec base hc, ?_, by decide, by decide⟩
  · intro h
    simp [resolve_link, h]
  · intro h hsl
    simp [resolve_link, h, join_relative_link_to_url, hsl, join_strings_together,
      List.take_length]
  · intro h hsl
    obtain ⟨i0, hi0, hg0⟩ := hs
    have hch : chAt base i0 = '/' := (chAt_eq_iff_get? base i0 '/' (by decide)).mpr hg0
    have hi0len : i0 < base.length := by
      rcases List.get?_eq_some.mp hg0 with ⟨hl, _⟩
      exact hl
    have hsome := last_slash_scan_isSome base i0 hi0 hch base.length (by omega)
    obtain ⟨i, hi⟩ := Option.isSome_iff_exists.mp hsome
    obtain ⟨h1, h2, h3, h4⟩ := last_slash_scan_some base base.length i hi
    refine ⟨i, h1, (chAt_eq_iff_get? base i '/' (by decide)).mp h3, ?_, ?_⟩
    · intro j hj1 hj2 hcon
      exact h4 j hj1 (by omega) ((chAt_eq_iff_get? base j '/' (by decide)).mpr hcon)
    · simp [resolve_link, h, join_relative_link_to_url, hsl, hi, join_strings_together,
        List.take_length]

/-- Witness for claim C4 at the claim's own example: `c.gmi` against
`gemini://x.org/a/b.gmi`. -/
theorem C4_witness :
    resolve_link "gemini://x.org/a/b.gmi".toList "c.gmi".toList =
      some "gemini://x.org/a/c.gmi".toList :=
  (C4_resolve_relative "gemini://x.org/a/b.gmi".toList "c.gmi".toList (by decide)
    ⟨7, by decide, by decide⟩).2.2.2.2.2

/-! ## C7: growable byte buffer -/

/-- Reading back every stored position of a list reproduces the list. -/
theorem map_getD_range {α : Type} [Inhabited α] (l : List α) :
    (List.range l.length).map (fun i => l.getD i default) = l := by
  induction l with
  | nil => rfl
  | cons x r ih =>
    rw [List.length_cons, List.range_succ_eq_map, List.map_cons, List.map_map]
    rw [show ((fun i => (x :: r).getD i default) ∘ Nat.succ) = fun i => r.getD i default from
      funext fun i => List.getD_cons_succ]
    rw [ih]
    rfl

/-- Appending a buffer extends the stored data by exactly that buffer
(realloc preserves the stored prefix; the new slots hold the copied
items). -/
theorem dyn_array_contents_append {α : Type} [Inhabited α] (a : dyn_array α)
    (buffer : List α) :
    dyn_array_contents (dyn_array_append_buffer a buffer) =
      dyn_array_contents a ++ buffer := by
  unfold dyn_array_contents dyn_array_append_buffer
  dsimp only
  rw [List.range_add, List.map_append, List.map_map]
  congr 1
  · apply List.map_congr_left
    intro i hi
    have hi2 : i < a.length := List.mem_range.mp hi
    show (if a.length ≤ i ∧ i < a.length + buffer.length then buffer.getD (i - a.length) default
        else a.items i) = a.items i
    rw [if_neg (by omega)]
  · apply Eq.trans (List.map_congr_left ?_) (map_getD_range buffer)
    intro i hi
    have hi2 : i < buffer.length := List.mem_range.mp hi
    show (if a.length ≤ a.length + i ∧ a.length + i < a.length + buffer.length
        then buffer.getD (a.length + i - a.length) default else a.items (a.length + i)) =
      buffer.getD i default
    rw [if_pos ⟨by omega, by omega⟩, show a.length + i - a.length = i from by omega]

/-- Appending the buffer one item at a time stores the same data as one
bulk append. -/
theorem dyn_array_append_singletons {α : Type} [Inhabited α] (a : dyn_array α)
    (buffer : List α) :
    dyn_array_contents (buffer.foldl (fun acc x => dyn_array_append_buffer acc [x]) a) =
      dyn_array_contents a ++ buffer := by
  induction buffer generalizing a with
  | nil => rw [List.foldl_nil, List.append_nil]
  | cons x bs ih =>
    rw [List.foldl_cons, ih, dyn_array_contents_append]
    simp

/-- Claim C7 (confirmed): creation, resize-to-fit and
prepare-new-item keep `length ≤ capacity`; a resize that must grow sets
the capacity to exactly `max total (2 * capacity)` and the capacity
never decreases; the stored data survives a resize unchanged; and
appending a buffer one item at a time stores the same data as a single
bulk append (`dyn_array_append_buffer` is modelled from the spec, being
declared but not implemented in the sources). -/
theorem C7_dyn_array_growth {α : Type} [Inhabited α] (junk : Nat → α) (a : dyn_array α)
    (total_items : Nat) (buffer : List α) (h : a.length ≤ a.capacity) :
    (∀ cap0 : Nat, (dyn_array_create α cap0 junk).length ≤
      (dyn_array_create α cap0 junk).capacity) ∧
    (dyn_array_resize_to_fit a total_items).length ≤
      (dyn_array_resize_to_fit a total_items).capacity ∧
    a.capacity ≤ (dyn_array_resize_to_fit a total_items).capacity ∧
    (a.capacity < total_items →
      (dyn_array_resize_to_fit a total_items).capacity = max total_items (2 * a.capacity)) ∧
    dyn_array_contents (dyn_array_resize_to_fit a total_items) = dyn_array_contents a ∧
    (dyn_array_prepare_new_item a).length ≤ (dyn_array_prepare_new_item a).capacity ∧
    dyn_array_contents (buffer.foldl (fun acc x => dyn_array_append_buffer acc [x]) a) =
      dyn_array_contents (dyn_array_append_buffer a buffer) := by
  refine ⟨?_, ?_, ?_, ?_, ?_, ?_, ?_⟩
  · intro cap0
    exact Nat.zero_le _
  · unfold dyn_array_resize_to_fit
    split
    next hgrow =>
      exact le_trans h (le_trans (by omega : a.capacity ≤ 2 * a.capacity)
        (Nat.le_max_right _ _))
    next => exact h
  · unfold dyn_array_resize_to_fit
    split
    next =>
      exact le_trans (by omega : a.capacity ≤ 2 * a.capacity) (Nat.le_max_right _ _)
    next => exact Nat.le_refl _
  · intro hgrow
    unfold dyn_array_resize_to_fit
    rw [if_pos hgrow]
  · unfold dyn_array_resize_to_fit
    split <;> rfl
  · unfold dyn_array_prepare_new_item dyn_array_resize_to_fit
    split
    next => exact Nat.le_max_left _ _
    next hno => exact Nat.le_of_not_lt hno
  · rw [dyn_array_append_singletons, dyn_array_contents_append]

/-- Witness for claim C7: a capacity-2 array with one stored item,
appended with two further items one at a time or in bulk. -/
theorem C7_witness :
    dyn_array_contents (([3, 4] : List Nat).foldl
        (fun acc x => dyn_array_append_buffer acc [x]) ⟨1, 2, fun _ => 7⟩) =
      dyn_array_contents (dyn_array_append_buffer (⟨1, 2, fun _ => 7⟩ : dyn_array Nat)
        [3, 4]) :=
  (C7_dyn_array_growth (fun _ => 0) ⟨1, 2, fun _ => 7⟩ 5 [3, 4] (by decide)).2.2.2.2.2.2
